import Mathlib

/-!
AtlVsStlStringPerf: a verification development.

Shallow embedding of `AtlVsStlStringPerf.cpp` (string concatenation loop, corpus
generation, sort step) and theorems about it.

Modelling conventions.

* A `wchar_t` code unit is a natural number and a wide string (`std::wstring`, and
  likewise `ATL::CStringW`, which the program builds from the same characters) is the
  list of its code units. `operator+` / `operator+=` on strings is list append and
  `operator<` is the lexicographic order on code units. For `CStringW` operands the
  result of `StringConcat` is converted to `wstring` through `const wchar_t*`, which is
  the identity on strings without an embedded NUL, the only ones the program builds.
* `size_t` and `int` counters are natural numbers. Every index expression the
  concatenation loop computes is bounded by `v.size()` (see `loop_index_bound`), and the
  generation counter is bounded by the iteration count, so no wrap-around can occur.
* `StringConcat` returns `void` and discards each string it builds; the embedding
  returns the trace of its loop iterations instead, so that what it computes can be
  stated.
* A `long long` is an integer, with subtraction wrapping modulo `2 ^ 64`. A finite
  `double` is the rational number it stands for, and every arithmetic operation or
  conversion to `double` is the exact operation followed by the IEEE 754 binary64
  rounding (to nearest, ties to even) `roundBinary64`; a result that is not a finite
  number (an infinity or a NaN) is `none`. `PrintTime` is the `double` it hands to
  `operator<<`; the decimal formatting done by the stream is not modelled.
-/

namespace AtlVsStlStringPerf

/-! Strings -/

/-- A wide character (`wchar_t`), as the numeric value of the code unit. -/
abbrev wchar_t := ℕ

/-- A wide string (`std::wstring` / `CStringW`): the sequence of its code units. -/
abbrev wstring := List wchar_t

/-- The wide string literal `L"..."`, for the ASCII literals of the program: one code
unit per character. -/
def L (s : String) : wstring := s.data.map Char.toNat

/-! The performance counter helpers: `PrintTime` -/

/-- The constant `constexpr size_t kConcatenationCount = 6;` of `StringConcat`. -/
def kConcatenationCount : ℕ := 6

/-- What one iteration of the `for` loop of `StringConcat` does: the value of the loop
index `i`, the value of the condition inside `ATLASSERT`, the indices passed to
`operator[]` in order, and the final value of the local `result`. -/
structure ConcatIter where
  i : ℕ
  assertOk : Bool
  reads : List ℕ
  result : wstring
deriving DecidableEq, Repr

/-- How a run of `StringConcat` ends: the loop finishes (with the trace of its
iterations), or some `v[...]` is evaluated outside `0 .. v.size()-1` (undefined
behaviour in C++) in the iteration with index `i`, or the model ran out of fuel. -/
inductive ConcatRun where
  | finished (trace : List ConcatIter)
  | outOfRange (i : ℕ)
  | outOfFuel
deriving DecidableEq, Repr

/-- The body of the `for` loop of `StringConcat` at loop index `i`:
```
ATLASSERT((i >= 0) && ((i + kConcatenationCount - 1) < v.size()));
wstring result = v[i] + v[i + 1] + v[i + 2] + v[i + 3];
result += v[i + 4];
result += v[i + 5];
```
`none` when an element access is out of range. -/
def concatBody (v : List wstring) (i : ℕ) : Option ConcatIter := do
  let assertOk := decide (i ≥ 0) && decide (i + kConcatenationCount - 1 < v.length)
  let result := (← v[i]?) ++ (← v[i + 1]?) ++ (← v[i + 2]?) ++ (← v[i + 3]?)
  let result := result ++ (← v[i + 4]?)
  let result := result ++ (← v[i + 5]?)
  pure ⟨i, assertOk, [i, i + 1, i + 2, i + 3, i + 4, i + 5], result⟩

/-- The loop `for (size_t i = ...; i < maxIter; i += kConcatenationCount) { body }`
started at index `i`, with `fuel` bounding the number of iterations. -/
def StringConcatLoop (v : List wstring) (maxIter : ℕ) : ℕ → ℕ → ConcatRun
  | 0, i => if i < maxIter then .outOfFuel else .finished []
  | fuel + 1, i =>
    if i < maxIter then
      match concatBody v i with
      | none => .outOfRange i
      | some it =>
        match StringConcatLoop v maxIter fuel (i + kConcatenationCount) with
        | .finished rest => .finished (it :: rest)
        | stop => stop
    else .finished []

/-- The function
`template <typename StringType> void StringConcat(const vector<StringType>& v)`:
`maxIter = v.size() / kConcatenationCount`, then the loop from `i = 0`. The index grows
by six in each iteration, so `maxIter` iterations of fuel are enough
(`StringConcatLoop_fuel`). -/
def StringConcat (v : List wstring) : ConcatRun :=
  let maxIter := v.length / kConcatenationCount
  StringConcatLoop v maxIter maxIter 0

/-- The iteration record the loop body produces at index `i` when all six elements
exist (missing elements read as the empty string). -/
def iterAt (v : List wstring) (i : ℕ) : ConcatIter :=
  ⟨i, true, [i, i + 1, i + 2, i + 3, i + 4, i + 5],
    v.getD i [] ++ v.getD (i + 1) [] ++ v.getD (i + 2) [] ++ v.getD (i + 3) []
      ++ v.getD (i + 4) [] ++ v.getD (i + 5) []⟩

/-- The start indices `i, i + 6, i + 12, ...` below `maxIter`. -/
def startsFrom (maxIter i : ℕ) : List ℕ :=
  (List.range ((maxIter - i + 5) / 6)).map (fun k => i + 6 * k)

/-! The corpus generator: the lambda that initialises `shuffled` in `RunTests` -/

/-- The array `const wstring lorem[]` of source lines. -/
def lorem : List wstring :=
  [ L "Lorem ipsum dolor sit amet, consectetuer adipiscing elit.",
    L "Maecenas porttitor congue massa. Fusce posuere, magna sed",
    L "pulvinar ultricies, purus lectus malesuada libero,",
    L "sit amet commodo magna eros quis urna.",
    L "Nunc viverra imperdiet enim. Fusce est. Vivamus a tellus.",
    L "Pellentesque habitant morbi tristique senectus et netus et",
    L "malesuada fames ac turpis egestas. Proin pharetra nonummy pede.",
    L "Mauris et orci. [*** add more chars to prevent SSO ***]" ]

/-- Modelled from the spec: `std::to_wstring(int)` is C++ standard library code and is
not part of the repository; it is the `decimal(...)` of section 4.2, the decimal digits
of the number, most significant first. The loop counter it is applied to is never
negative. -/
def to_wstring (i : ℕ) : wstring := L (Nat.repr i)

/-- The number a string of decimal digits stands for. -/
def decimalValue (s : wstring) : ℕ := s.foldl (fun acc c => 10 * acc + (c - 48)) 0

/-- The argument of `v.push_back(...)` for source line `s` in outer iteration `i`:
`L"#" + to_wstring(i)` when `TEST_TINY_STRING_PERFORMANCE` is defined (`tiny`), and
`s + L" (#" + to_wstring(i) + L")"` otherwise. -/
def pushedString (tiny : Bool) (s : wstring) (i : ℕ) : wstring :=
  if tiny then L "#" ++ to_wstring i else s ++ L " (#" ++ to_wstring i ++ L ")"

/-- The inner loop `for (const auto & s : lorem) { v.push_back(...); }` of outer
iteration `i`, run on the vector `v`. -/
def pushLorem (tiny : Bool) (i : ℕ) (v : List wstring) : List wstring :=
  lorem.foldl (fun v s => v ++ [pushedString tiny s i]) v

/-- The vector `v` of the generator lambda when the loop
`for (int i = 0; i < kTestIterationCount; ++i)` has finished, before the shuffle.
`kTestIterationCount` is 1000 in a debug build and 200000 otherwise. -/
def generate (tiny : Bool) (kTestIterationCount : ℕ) : List wstring :=
  (List.range kTestIterationCount).foldl (fun v i => pushLorem tiny i v) []

/-- The value of `shuffled` in `RunTests`: the generated vector after
`mt19937 prng(1980); shuffle(v.begin(), v.end(), prng);`. The effect of the library
call with its fixed seed is the parameter `shuffle`. -/
def shuffled (shuffle : List wstring → List wstring) (tiny : Bool)
    (kTestIterationCount : ℕ) : List wstring :=
  shuffle (generate tiny kTestIterationCount)

/-! The sort test: `sort(stl1.begin(), stl1.end())` -/

section Sorting

variable {α : Type} [LinearOrder α]

/-- Modelled from the spec: part of the model of `std::sort` (see `sort`). Merging
`x :: xs` with a second sorted list, where `mergeTail` merges `xs` with a list: elements
of the second list that are less than `x` go first. -/
def mergeInto (x : α) (xs : List α) (mergeTail : List α → List α) : List α → List α
  | [] => x :: xs
  | y :: ys => if y < x then y :: mergeInto x xs mergeTail ys else x :: mergeTail (y :: ys)

/-- Modelled from the spec: part of the model of `std::sort` (see `sort`). Merge of two
sorted lists, comparing with `operator<` only. -/
def merge : List α → List α → List α
  | [], ys => ys
  | x :: xs, ys => mergeInto x xs (merge xs) ys

/-- Modelled from the spec: part of the model of `std::sort` (see `sort`). Adding a
sorted run to a binary counter of sorted runs (slot `k` is empty or holds a run of
`2 ^ k` elements), with carries done by `merge`. -/
def pushRun (run : List α) : List (Option (List α)) → List (Option (List α))
  | [] => [some run]
  | none :: slots => some run :: slots
  | some r :: slots => none :: pushRun (merge r run) slots

/-- Modelled from the spec: part of the model of `std::sort` (see `sort`). Merging all
runs of a counter into one list. -/
def collapse : List (Option (List α)) → List α
  | [] => []
  | none :: slots => collapse slots
  | some r :: slots => merge (collapse slots) r

/-- Modelled from the spec: `std::sort` is C++ standard library code and is not part of
the repository, which only calls it as `sort(x.begin(), x.end())` with the default
comparison `operator<`. Following section 4.3 (a comparison-based sort of the merge sort
class, exact algorithm free), it is a bottom-up merge sort that compares elements with
`<` only. -/
def sort (v : List α) : List α :=
  collapse (v.foldl (fun slots x => pushRun [x] slots) [])

/-- The elements held in a counter of runs. -/
def runElems (slots : List (Option (List α))) : List α :=
  slots.flatMap (fun s => s.getD [])

end Sorting

/-! Lemmas on `StringConcat` -/

theorem loop_index_bound (len i : ℕ) (h : i < len / 6) : i + 6 ≤ len := by
  omega

theorem getElem?_eq_some_getD (v : List wstring) (j : ℕ) (h : j < v.length) :
    v[j]? = some (v.getD j []) := by
  simp [List.getD, List.getElem?_eq_getElem h]

theorem concatBody_eq (v : List wstring) (i : ℕ) (h : i < v.length / 6) :
    concatBody v i = some (iterAt v i) := by
  have hb := loop_index_bound v.length i h
  simp only [concatBody, iterAt, kConcatenationCount,
    getElem?_eq_some_getD v i (by omega), getElem?_eq_some_getD v (i + 1) (by omega),
    getElem?_eq_some_getD v (i + 2) (by omega), getElem?_eq_some_getD v (i + 3) (by omega),
    getElem?_eq_some_getD v (i + 4) (by omega), getElem?_eq_some_getD v (i + 5) (by omega)]
  have h5 : i + 5 < v.length := by omega
  simp [h5]

theorem startsFrom_done (maxIter i : ℕ) (h : ¬ i < maxIter) : startsFrom maxIter i = [] := by
  have : (maxIter - i + 5) / 6 = 0 := by omega
  simp [startsFrom, this]

theorem startsFrom_step (maxIter i : ℕ) (h : i < maxIter) :
    startsFrom maxIter i = i :: startsFrom maxIter (i + 6) := by
  have : (maxIter - i + 5) / 6 = (maxIter - (i + 6) + 5) / 6 + 1 := by omega
  simp only [startsFrom, this, List.range_succ_eq_map, List.map_cons, List.map_map]
  refine congrArg₂ _ (by simp) (List.map_congr_left ?_)
  intro k _
  simp only [Function.comp, Nat.succ_eq_add_one]
  ring

/-- With enough fuel the loop finishes, and its trace is `iterAt` at each start index. -/
theorem StringConcatLoop_fuel (v : List wstring) (fuel i : ℕ)
    (hfuel : v.length / 6 - i ≤ fuel) :
    StringConcatLoop v (v.length / 6) fuel i
      = .finished ((startsFrom (v.length / 6) i).map (iterAt v)) := by
  induction fuel generalizing i with
  | zero =>
    have h : ¬ i < v.length / 6 := by omega
    simp [StringConcatLoop, h, startsFrom_done _ _ h]
  | succ fuel ih =>
    by_cases h : i < v.length / 6
    · have hrec := ih (i + 6) (by omega)
      simp [StringConcatLoop, h, concatBody_eq v i h, kConcatenationCount, hrec,
        startsFrom_step _ _ h]
    · simp [StringConcatLoop, h, startsFrom_done _ _ h]

/-- The run of `StringConcat` on any vector: it finishes, with one `iterAt` record per
start index `0, 6, 12, ...` below `v.size() / 6`. -/
theorem StringConcat_eq (v : List wstring) :
    StringConcat v = .finished ((startsFrom (v.length / 6) 0).map (iterAt v)) := by
  simp only [StringConcat, kConcatenationCount]
  exact StringConcatLoop_fuel v _ 0 (by omega)

/-- More fuel than `maxIter` does not change the run. -/
theorem StringConcatLoop_fuel_irrelevant (v : List wstring) (fuel : ℕ)
    (hfuel : v.length / 6 ≤ fuel) :
    StringConcatLoop v (v.length / 6) fuel 0 = StringConcat v := by
  rw [StringConcat_eq]
  exact StringConcatLoop_fuel v fuel 0 (by omega)

theorem mem_startsFrom_zero (maxIter i : ℕ) (h : i ∈ startsFrom maxIter 0) :
    i < maxIter ∧ 6 ∣ i := by
  simp only [startsFrom, List.mem_map, List.mem_range] at h
  obtain ⟨k, hk, rfl⟩ := h
  constructor
  · omega
  · simp

/-! Lemmas on the corpus generator -/

theorem digitChar_toNat (d : ℕ) (h : d < 10) : (Nat.digitChar d).toNat = 48 + d := by
  interval_cases d <;> rfl

theorem toDigitsCore_append (fuel n : ℕ) (ds : List Char) :
    Nat.toDigitsCore 10 fuel n ds = Nat.toDigitsCore 10 fuel n [] ++ ds := by
  induction fuel generalizing n ds with
  | zero => simp [Nat.toDigitsCore]
  | succ fuel ih =>
    simp only [Nat.toDigitsCore]
    split
    · simp
    · rw [ih (n / 10) (_ :: ds), ih (n / 10) [_]]; simp

theorem decimalValue_append_singleton (s : wstring) (c : ℕ) :
    decimalValue (s ++ [c]) = 10 * decimalValue s + (c - 48) := by
  simp [decimalValue, List.foldl_append]

theorem decimalValue_toDigitsCore (fuel n : ℕ) (h : n < fuel) :
    decimalValue ((Nat.toDigitsCore 10 fuel n []).map Char.toNat) = n
      ∧ ∀ c ∈ (Nat.toDigitsCore 10 fuel n []).map Char.toNat, 48 ≤ c ∧ c ≤ 57 := by
  induction fuel generalizing n with
  | zero => omega
  | succ fuel ih =>
    have hd := digitChar_toNat (n % 10) (Nat.mod_lt _ (by norm_num))
    simp only [Nat.toDigitsCore]
    split
    · constructor
      · simp [decimalValue, hd]; omega
      · intro c hc
        simp only [List.map_cons, List.map_nil, List.mem_singleton] at hc
        omega
    · have hrec := ih (n / 10) (by omega)
      rw [toDigitsCore_append, List.map_append, List.map_cons, List.map_nil]
      constructor
      · rw [decimalValue_append_singleton, hrec.1, hd]; omega
      · intro c hc
        rcases List.mem_append.mp hc with hc | hc
        · exact hrec.2 c hc
        · simp only [List.mem_singleton] at hc
          omega

/-- The model of `std::to_wstring` writes decimal: its result consists of the digits
`'0' .. '9'` and stands for the number it was given. -/
theorem to_wstring_decimal (n : ℕ) :
    decimalValue (to_wstring n) = n ∧ ∀ c ∈ to_wstring n, 48 ≤ c ∧ c ≤ 57 := by
  simpa [to_wstring, L, Nat.repr, Nat.toDigits, List.asString] using
    decimalValue_toDigitsCore (n + 1) n (by omega)

theorem lorem_length : lorem.length = 8 := rfl

theorem foldl_push_eq (f : wstring → wstring) (l v : List wstring) :
    l.foldl (fun v s => v ++ [f s]) v = v ++ l.map f := by
  induction l generalizing v with
  | nil => simp
  | cons s l ih => simp [ih]

theorem pushLorem_eq (tiny : Bool) (i : ℕ) (v : List wstring) :
    pushLorem tiny i v = v ++ lorem.map (fun s => pushedString tiny s i) :=
  foldl_push_eq (fun s => pushedString tiny s i) lorem v

/-- One more outer iteration appends the eight strings of that iteration. -/
theorem generate_succ (tiny : Bool) (n : ℕ) :
    generate tiny (n + 1) = generate tiny n ++ lorem.map (fun s => pushedString tiny s n) := by
  simp [generate, List.range_succ, pushLorem_eq]

theorem generate_length (tiny : Bool) (n : ℕ) : (generate tiny n).length = n * 8 := by
  induction n with
  | zero => simp [generate]
  | succ n ih => rw [generate_succ, List.length_append, ih, List.length_map, lorem_length]; ring

/-- The string at index `i` of the generated vector is built from source line `i % 8`
in outer iteration `i / 8`. -/
theorem generate_getElem? (tiny : Bool) (n i : ℕ) (h : i < n * 8) :
    (generate tiny n)[i]? = (lorem[i % 8]?).map (fun s => pushedString tiny s (i / 8)) := by
  induction n with
  | zero => omega
  | succ n ih =>
    rw [generate_succ]
    by_cases hi : i < n * 8
    · rw [List.getElem?_append_left (by rw [generate_length]; exact hi)]
      exact ih hi
    · rw [List.getElem?_append_right (by rw [generate_length]; omega), generate_length,
        List.getElem?_map]
      have h1 : i - n * 8 = i % 8 := by omega
      have h2 : i / 8 = n := by omega
      rw [h1, h2]

/-! Lemmas on the sort -/

section Sorting

variable {α : Type} [LinearOrder α]

theorem merge_nil_right (xs : List α) : merge xs [] = xs := by
  cases xs <;> simp [merge, mergeInto]

theorem merge_cons_cons (x y : α) (xs ys : List α) :
    merge (x :: xs) (y :: ys)
      = if y < x then y :: merge (x :: xs) ys else x :: merge xs (y :: ys) := by
  simp [merge, mergeInto]

theorem merge_perm (xs ys : List α) : (merge xs ys).Perm (xs ++ ys) := by
  induction xs generalizing ys with
  | nil => simp [merge]
  | cons x xs ihx =>
    induction ys with
    | nil => simp [merge_nil_right]
    | cons y ys ihy =>
      rw [merge_cons_cons]
      split
      · exact (ihy.cons y).trans List.perm_middle.symm
      · exact (ihx (y :: ys)).cons x

theorem merge_sorted (xs ys : List α) (hx : xs.Sorted (· ≤ ·)) (hy : ys.Sorted (· ≤ ·)) :
    (merge xs ys).Sorted (· ≤ ·) := by
  induction xs generalizing ys with
  | nil => simpa [merge] using hy
  | cons x xs ihx =>
    induction ys with
    | nil => simpa [merge_nil_right] using hx
    | cons y ys ihy =>
      rw [merge_cons_cons]
      have hx' := List.sorted_cons.mp hx
      have hy' := List.sorted_cons.mp hy
      split
      · rename_i hlt
        refine List.sorted_cons.mpr ⟨?_, ihy hy'.2⟩
        intro b hb
        rcases List.mem_append.mp ((merge_perm (x :: xs) ys).subset hb) with hb | hb
        · rcases List.mem_cons.mp hb with rfl | hb
          · exact hlt.le
          · exact hlt.le.trans (hx'.1 b hb)
        · exact hy'.1 b hb
      · rename_i hnlt
        refine List.sorted_cons.mpr ⟨?_, ihx (y :: ys) hx'.2 hy⟩
        intro b hb
        rcases List.mem_append.mp ((merge_perm xs (y :: ys)).subset hb) with hb | hb
        · exact hx'.1 b hb
        · rcases List.mem_cons.mp hb with rfl | hb
          · exact not_lt.mp hnlt
          · exact (not_lt.mp hnlt).trans (hy'.1 b hb)

theorem pushRun_perm (run : List α) (slots : List (Option (List α))) :
    (runElems (pushRun run slots)).Perm (runElems slots ++ run) := by
  induction slots generalizing run with
  | nil => simp [pushRun, runElems]
  | cons s slots ih =>
    cases s with
    | none => simpa [pushRun, runElems] using List.perm_append_comm
    | some r =>
      have h := (ih (merge r run)).trans ((merge_perm r run).append_left _)
      simp only [pushRun, runElems, List.flatMap_cons, Option.getD_none, Option.getD_some,
        List.nil_append] at h ⊢
      refine h.trans ?_
      rw [← List.append_assoc]
      exact List.perm_append_comm.append_right run

theorem pushRun_sorted (run : List α) (slots : List (Option (List α)))
    (hrun : run.Sorted (· ≤ ·)) (hs : ∀ r, some r ∈ slots → r.Sorted (· ≤ ·)) :
    ∀ r, some r ∈ pushRun run slots → r.Sorted (· ≤ ·) := by
  induction slots generalizing run with
  | nil =>
    intro r hr
    simp only [pushRun, List.mem_singleton, Option.some.injEq] at hr
    exact hr ▸ hrun
  | cons s slots ih =>
    cases s with
    | none =>
      intro r hr
      simp only [pushRun, List.mem_cons, Option.some.injEq] at hr
      rcases hr with rfl | hr
      · exact hrun
      · exact hs r (List.mem_cons_of_mem _ hr)
    | some r0 =>
      intro r hr
      simp only [pushRun, List.mem_cons] at hr
      rcases hr with hr | hr
      · cases hr
      · exact ih (merge r0 run)
          (merge_sorted r0 run (hs r0 (List.mem_cons_self _ _)) hrun)
          (fun q hq => hs q (List.mem_cons_of_mem _ hq)) r hr

theorem collapse_perm (slots : List (Option (List α))) :
    (collapse slots).Perm (runElems slots) := by
  induction slots with
  | nil => simp [collapse, runElems]
  | cons s slots ih =>
    cases s with
    | none => simpa [collapse, runElems] using ih
    | some r =>
      have h := (merge_perm (collapse slots) r).trans (ih.append_right r)
      simp only [collapse, runElems, List.flatMap_cons, Option.getD_some] at h ⊢
      exact h.trans List.perm_append_comm

theorem collapse_sorted (slots : List (Option (List α)))
    (hs : ∀ r, some r ∈ slots → r.Sorted (· ≤ ·)) : (collapse slots).Sorted (· ≤ ·) := by
  induction slots with
  | nil => simp [collapse]
  | cons s slots ih =>
    have ih' := ih (fun q hq => hs q (List.mem_cons_of_mem _ hq))
    cases s with
    | none => simpa [collapse] using ih'
    | some r =>
      simpa [collapse] using merge_sorted _ r ih' (hs r (List.mem_cons_self _ _))

theorem foldl_pushRun_perm (v : List α) (slots : List (Option (List α))) :
    (runElems (v.foldl (fun slots x => pushRun [x] slots) slots)).Perm
      (runElems slots ++ v) := by
  induction v generalizing slots with
  | nil => simp
  | cons x v ih =>
    simp only [List.foldl_cons]
    refine (ih (pushRun [x] slots)).trans ?_
    have h := (pushRun_perm [x] slots).append_right v
    simpa using h

theorem foldl_pushRun_sorted (v : List α) (slots : List (Option (List α)))
    (hs : ∀ r, some r ∈ slots → r.Sorted (· ≤ ·)) :
    ∀ r, some r ∈ v.foldl (fun slots x => pushRun [x] slots) slots → r.Sorted (· ≤ ·) := by
  induction v generalizing slots with
  | nil => simpa using hs
  | cons x v ih =>
    simp only [List.foldl_cons]
    exact ih (pushRun [x] slots) (pushRun_sorted [x] slots (List.sorted_singleton x) hs)

/-- The model of `std::sort` returns a permutation of its argument. -/
theorem sort_perm (v : List α) : (sort v).Perm v := by
  have h := (collapse_perm _).trans (foldl_pushRun_perm v [])
  simpa [sort, runElems] using h

/-- The model of `std::sort` returns a list sorted for `≤`. -/
theorem sort_sorted (v : List α) : (sort v).Sorted (· ≤ ·) :=
  collapse_sorted _ (foldl_pushRun_sorted v [] (by simp))

end Sorting

/-! Lemmas on the binary64 rounding and `PrintTime` -/

/-- C1 (the code at the inputs of the claim's examples): on a vector of 17 strings, and
on one of 16, `StringConcat` runs one loop iteration (start index 0) and stops, although
`floor(17 / 6) = floor(16 / 6) = 2`: the loop bound is already divided by six and the
index is stepped by six again. -/
theorem StringConcat_seventeen_runs_once :
    StringConcat (List.replicate 17 (L "x"))
        = .finished [⟨0, true, [0, 1, 2, 3, 4, 5], L "xxxxxx"⟩]
      ∧ StringConcat (List.replicate 16 (L "x"))
        = .finished [⟨0, true, [0, 1, 2, 3, 4, 5], L "xxxxxx"⟩]
      ∧ (List.replicate 17 (L "x")).length / kConcatenationCount = 2
      ∧ (List.replicate 16 (L "x")).length / kConcatenationCount = 2 := by
  decide

/-- C2: for every vector `v`, `StringConcat` finishes and in every iteration, with start
index `i`, the six elements `v[i] .. v[i+5]` exist and the string built is
`v[i] ++ v[i+1] ++ v[i+2] ++ v[i+3] ++ v[i+4] ++ v[i+5]`, with nothing in between; and on
`["a","b","c","d","e","f"]` the one string built is `"abcdef"`. -/
theorem StringConcat_builds_concatenation :
    (∀ v : List wstring, ∃ trace, StringConcat v = .finished trace ∧
      ∀ it ∈ trace, ∃ a b c d e f,
        v[it.i]? = some a ∧ v[it.i + 1]? = some b ∧ v[it.i + 2]? = some c ∧
        v[it.i + 3]? = some d ∧ v[it.i + 4]? = some e ∧ v[it.i + 5]? = some f ∧
        it.result = a ++ b ++ c ++ d ++ e ++ f)
      ∧ StringConcat [L "a", L "b", L "c", L "d", L "e", L "f"]
        = .finished [⟨0, true, [0, 1, 2, 3, 4, 5], L "abcdef"⟩] := by
  refine ⟨fun v => ⟨_, StringConcat_eq v, ?_⟩, by decide⟩
  intro it hit
  obtain ⟨i, hi, rfl⟩ := List.mem_map.mp hit
  have hlt := (mem_startsFrom_zero _ i hi).1
  have hb := loop_index_bound v.length i hlt
  exact ⟨_, _, _, _, _, _, getElem?_eq_some_getD v i (by omega),
    getElem?_eq_some_getD v (i + 1) (by omega), getElem?_eq_some_getD v (i + 2) (by omega),
    getElem?_eq_some_getD v (i + 3) (by omega), getElem?_eq_some_getD v (i + 4) (by omega),
    getElem?_eq_some_getD v (i + 5) (by omega), rfl⟩

/-- C3: for every vector `v` of length `len`, `StringConcat` finishes and every index it
passes to `operator[]` is below `6 * floor(len / 6)`: no element of the final partial
block is read. -/
theorem StringConcat_reads_below_last_full_block (v : List wstring) :
    ∃ trace, StringConcat v = .finished trace ∧
      ∀ it ∈ trace, ∀ j ∈ it.reads, j < 6 * (v.length / 6) := by
  refine ⟨_, StringConcat_eq v, ?_⟩
  intro it hit j hj
  obtain ⟨i, hi, rfl⟩ := List.mem_map.mp hit
  have hlt := (mem_startsFrom_zero _ i hi).1
  simp only [iterAt, List.mem_cons, List.mem_singleton, List.not_mem_nil, or_false] at hj
  omega

/-- C3 at length 17: the indices 12 .. 16 are not read. -/
theorem StringConcat_reads_below_last_full_block_seventeen :
    ∃ trace, StringConcat (List.replicate 17 (L "x")) = .finished trace ∧
      ∀ it ∈ trace, ∀ j ∈ it.reads, j < 12 :=
  StringConcat_reads_below_last_full_block (List.replicate 17 (L "x"))

/-- C4: in normal mode, for every iteration count `n` and every `i < n * 8`, the string
at index `i` of the generated vector (before the shuffle) is
`lorem[i % 8] ++ " (#" ++ to_wstring (i / 8) ++ ")"`. -/
theorem generate_normal_getElem? (n i : ℕ) (h : i < n * 8) :
    ∃ s, lorem[i % 8]? = some s ∧
      (generate false n)[i]? = some (s ++ L " (#" ++ to_wstring (i / 8) ++ L ")") := by
  have hlt : i % 8 < lorem.length := by rw [lorem_length]; omega
  refine ⟨lorem[i % 8], List.getElem?_eq_getElem hlt, ?_⟩
  rw [generate_getElem? false n i h, List.getElem?_eq_getElem hlt]
  simp [pushedString]

/-- C4 at `n = 2`, `i = 9`: the string is the second source line with the marker of
outer iteration 1. -/
theorem generate_normal_getElem?_nine :
    9 < 2 * 8 ∧
      (∃ s, lorem[9 % 8]? = some s ∧
        (generate false 2)[9]? = some (s ++ L " (#" ++ to_wstring (9 / 8) ++ L ")")) ∧
      (generate false 2)[9]?
        = some (L "Maecenas porttitor congue massa. Fusce posuere, magna sed (#1)") :=
  ⟨by decide, generate_normal_getElem? 2 9 (by decide), by decide⟩

/-- C5: for every iteration count `n`, in either mode, the vector returned by the
generator has length `n * 8`, whatever permutation of its argument the shuffle
returns. -/
theorem shuffled_length (shuffle : List wstring → List wstring)
    (hshuffle : ∀ v, (shuffle v).Perm v) (tiny : Bool) (n : ℕ) :
    (shuffled shuffle tiny n).length = n * 8 := by
  rw [shuffled, (hshuffle _).length_eq, generate_length]

/-- C5 with the reversal as the permutation and `n = 2`: sixteen strings. -/
theorem shuffled_length_two :
    (shuffled List.reverse false 2).length = 2 * 8
      ∧ (shuffled List.reverse true 2).length = 2 * 8 :=
  ⟨shuffled_length List.reverse List.reverse_perm false 2,
    shuffled_length List.reverse List.reverse_perm true 2⟩

/-- C6: for every vector of strings, the result of the sort step is non-decreasing in
the lexicographic order of the strings: every adjacent pair `(x, y)` has `x ≤ y`, and
so has every pair in list order. -/
theorem sort_nondecreasing (v : List wstring) :
    List.Chain' (· ≤ ·) (sort v) ∧ List.Pairwise (· ≤ ·) (sort v) :=
  ⟨(sort_sorted v).chain', sort_sorted v⟩

/-- C7: for every vector of strings, the result of the sort step is a permutation of
the vector: the same multiset of elements, hence the same length. -/
theorem sort_same_multiset (v : List wstring) :
    (sort v).Perm v ∧ (↑(sort v) : Multiset wstring) = ↑v ∧ (sort v).length = v.length :=
  ⟨sort_perm v, Multiset.coe_eq_coe.mpr (sort_perm v), (sort_perm v).length_eq⟩

/-- C9: for every vector `v`, `StringConcat` finishes without an out-of-range access,
and in every iteration the asserted condition is true: the start index `i` has
`i + 5 < v.size()`, and all indices read are below `v.size()`. -/
theorem StringConcat_assert_holds (v : List wstring) :
    ∃ trace, StringConcat v = .finished trace ∧
      ∀ it ∈ trace, it.assertOk = true ∧ it.i + 5 < v.length ∧
        ∀ j ∈ it.reads, j < v.length := by
  refine ⟨_, StringConcat_eq v, ?_⟩
  intro it hit
  obtain ⟨i, hi, rfl⟩ := List.mem_map.mp hit
  have hb := loop_index_bound v.length i (mem_startsFrom_zero _ i hi).1
  refine ⟨rfl, by simp only [iterAt]; omega, ?_⟩
  intro j hj
  simp only [iterAt, List.mem_cons, List.mem_singleton, List.not_mem_nil, or_false] at hj
  omega

/-- C10: for every vector `v` of length `len`, with `m = floor(len / 6)`, the loop of
`StringConcat` runs `ceil(m / 6) = (m + 5) / 6` iterations (the number `k` with
`m ≤ 6 * k < m + 6`), at the start indices `0, 6, 12, ...`, all below `m`; it runs no
iteration exactly when `len < 6`. -/
theorem StringConcat_iteration_count (v : List wstring) :
    ∃ trace, StringConcat v = .finished trace ∧
      trace.length = (v.length / 6 + 5) / 6 ∧
      (v.length / 6 ≤ 6 * trace.length ∧ 6 * trace.length < v.length / 6 + 6) ∧
      trace.map (fun it => it.i) = (List.range trace.length).map (fun k => 6 * k) ∧
      (∀ it ∈ trace, it.i < v.length / 6) ∧
      (trace = [] ↔ v.length < 6) := by
  refine ⟨_, StringConcat_eq v, ?_⟩
  have hlen : ((startsFrom (v.length / 6) 0).map (iterAt v)).length
      = (v.length / 6 + 5) / 6 := by
    simp [startsFrom]
  refine ⟨hlen, ?_, ?_, ?_, ?_⟩
  · rw [hlen]; omega
  · rw [hlen]
    simp [startsFrom, iterAt, Function.comp_def]
  · intro it hit
    obtain ⟨i, hi, rfl⟩ := List.mem_map.mp hit
    exact (mem_startsFrom_zero _ i hi).1
  · rw [← List.length_eq_zero, hlen]
    omega

end AtlVsStlStringPerf
